import Mathlib

/-!
Shallow embedding of the audio-utility and visualizer-hook functions of the
mp3-player-visualizer repository, together with proofs of the spec's claims
about them.

Source functions embedded here:
  * `normalizeFrequencyData`, `validateAudioFile`, `clearAudioCache`,
    `smoothArray` from the audio utility module;
  * `getBarData`, `getBassLevel`, `getTrebleLevel` from the
    `useAudioVisualizer` hook.

Numbers: frequency snapshots are byte arrays (`Uint8Array`), modelled as
`List ℕ`; derived values are JavaScript numbers.  Because the source divides
by a chunk size that can be zero, JavaScript's `0/0 = NaN` and `x/0 = ±∞`
behaviour is observable, so derived values are modelled by `JSNum`:
an exact rational, `nan`, or a signed infinity.  All products the embedded
code computes (`length * 0.1`, `length * 0.7`) are modelled in exact rational
arithmetic; at the snapshot lengths the claims quantify over (0 and 100) the
IEEE-754 double products are exactly 10 and 70, the same values the rational
model yields, so the model is faithful on the claims' domain.
-/

/-- A JavaScript number as produced by the embedded arithmetic: a finite
value (exact rational), `NaN`, or a signed infinity. -/
inductive JSNum : Type where
  | num : ℚ → JSNum
  | nan : JSNum
  | posInf : JSNum
  | negInf : JSNum
  deriving DecidableEq, Repr

/-- JavaScript division on the values the embedded code produces.  Finite
operands follow IEEE semantics: `a / 0` is `NaN` when `a = 0` and a signed
infinity otherwise.  A `NaN` operand propagates.  (The embedded code never
divides by or into a non-finite value other than `NaN`, so the catch-all
returns `nan`.) -/
def jsDiv : JSNum → JSNum → JSNum
  | JSNum.num a, JSNum.num b =>
      if b = 0 then
        if a = 0 then JSNum.nan
        else if 0 < a then JSNum.posInf
        else JSNum.negInf
      else JSNum.num (a / b)
  | _, _ => JSNum.nan

/-- `normalizeFrequencyData(dataArray, barCount)` from the audio utility
module.  `none` models a missing/null `dataArray`.  The inner loop sums
`dataArray[j]` for `j` in `[i*chunkSize, i*chunkSize + chunkSize)` bounded by
the array length, which is exactly the sum of
`(dataArray.drop (i*chunkSize)).take chunkSize`; the average is then divided
by 255.  Both divisions are JavaScript divisions, so a zero `chunkSize`
yields `NaN` bars exactly as the source does. -/
def normalizeFrequencyData (dataArray : Option (List ℕ)) (barCount : ℕ) : List JSNum :=
  match dataArray with
  | none => List.replicate barCount (JSNum.num 0)
  | some s =>
      if s.length = 0 then List.replicate barCount (JSNum.num 0)
      else
        let chunkSize := s.length / barCount
        (List.range barCount).map (fun i =>
          let sum : ℕ := ((s.drop (i * chunkSize)).take chunkSize).sum
          jsDiv (jsDiv (JSNum.num (sum : ℚ)) (JSNum.num (chunkSize : ℚ))) (JSNum.num 255))

/-- The spec's formula for bar `i` of the normalized data, written from the
spec's words: with `chunkSize = ⌊len(s)/barCount⌋`,
`bars[i] = (Σ s[j] for j ∈ [i*chunkSize, min(i*chunkSize + chunkSize, len(s)))) / chunkSize / 255`. -/
def specBar (s : List ℕ) (barCount i : ℕ) : ℚ :=
  let chunkSize := s.length / barCount
  ((∑ j in Finset.Ico (i * chunkSize) (min (i * chunkSize + chunkSize) s.length),
      ((s.getD j 0 : ℕ) : ℚ)) / (chunkSize : ℚ)) / 255

/-- `getBarData(barCount)` from the `useAudioVisualizer` hook, as a function
of the hook's current `frequencyData` state.  Identical chunked averaging to
`normalizeFrequencyData` except that the average is not divided by 255. -/
def getBarData (frequencyData : List ℕ) (barCount : ℕ) : List JSNum :=
  if frequencyData.length = 0 then List.replicate barCount (JSNum.num 0)
  else
    let dataPoints := frequencyData.length / barCount
    (List.range barCount).map (fun i =>
      let sum : ℕ := ((frequencyData.drop (i * dataPoints)).take dataPoints).sum
      jsDiv (JSNum.num (sum : ℚ)) (JSNum.num (dataPoints : ℚ)))

/-- `getBassLevel()` from the `useAudioVisualizer` hook: sum of the first
`Math.floor(length * 0.1)` bins divided by that count (a JavaScript division,
`NaN` when the count is zero). -/
def getBassLevel (frequencyData : List ℕ) : JSNum :=
  if frequencyData.length = 0 then JSNum.num 0
  else
    let bassRange : ℕ := (((frequencyData.length : ℚ) * (1 / 10)).floor).toNat
    jsDiv (JSNum.num (((frequencyData.take bassRange).sum : ℕ) : ℚ))
      (JSNum.num (bassRange : ℚ))

/-- `getTrebleLevel()` from the `useAudioVisualizer` hook: sum and count over
the bins from `Math.floor(length * 0.7)` to the end, returning `sum / count`
when `count > 0` and `0` otherwise. -/
def getTrebleLevel (frequencyData : List ℕ) : JSNum :=
  if frequencyData.length = 0 then JSNum.num 0
  else
    let trebleStart : ℕ := (((frequencyData.length : ℚ) * (7 / 10)).floor).toNat
    let tail := frequencyData.drop trebleStart
    if 0 < tail.length then
      jsDiv (JSNum.num ((tail.sum : ℕ) : ℚ)) (JSNum.num (tail.length : ℚ))
    else JSNum.num 0

/-- `smoothArray`'s loop: given the previous smoothed value, each raw value
`x` produces `prev * k + x * (1 - k)`. -/
def smoothFrom (k prev : ℚ) : List ℚ → List ℚ
  | [] => []
  | x :: xs => (prev * k + x * (1 - k)) :: smoothFrom k (prev * k + x * (1 - k)) xs

/-- `smoothArray(array, smoothingFactor)` from the audio utility module:
`smoothed[0] = array[0]`, then the exponential-smoothing loop.  An empty
array is returned unchanged. -/
def smoothArray (array : List ℚ) (k : ℚ) : List ℚ :=
  match array with
  | [] => []
  | a :: rest => a :: smoothFrom k a rest

/-- A browser `File` as far as `validateAudioFile` inspects it: declared
content type and byte size. -/
structure AudioFile : Type where
  type : String
  size : ℕ
  deriving DecidableEq, Repr

/-- The result object of `validateAudioFile`: `valid` flag plus the error
message when invalid. -/
structure ValidationResult : Type where
  valid : Bool
  error : Option String
  deriving DecidableEq, Repr

/-- The `validTypes` list of `validateAudioFile`. -/
def validTypes : List String :=
  ["audio/mpeg", "audio/mp3", "audio/wav", "audio/ogg", "audio/aac", "audio/flac"]

/-- The `maxSize` constant of `validateAudioFile`: 100MB. -/
def maxSize : ℕ := 100 * 1024 * 1024

/-- `validateAudioFile(file)` from the audio utility module; `none` models a
missing/null file. -/
def validateAudioFile : Option AudioFile → ValidationResult
  | none => ⟨false, some "No file selected"⟩
  | some f =>
      if ¬ (validTypes.contains f.type) then
        ⟨false, some "Invalid file type. Please select an audio file."⟩
      else if maxSize < f.size then
        ⟨false, some "File too large. Maximum size is 100MB."⟩
      else ⟨true, none⟩

/-- `clearAudioCache()` from the audio utility module, as a function of the
`localStorage` contents (an association list of key/value pairs): every key
that starts with `audio_` or `player_` is removed, everything else is kept. -/
def clearAudioCache (store : List (String × String)) : List (String × String) :=
  store.filter (fun kv =>
    ¬ (kv.1.startsWith "audio_" = true ∨ kv.1.startsWith "player_" = true))

/-- A list's sum as a sum of its `getD` entries over its index range. -/
theorem list_sum_eq_sum_getD (l : List ℕ) :
    l.sum = ∑ j in Finset.range l.length, l.getD j 0 := by
  induction l with
  | nil => simp
  | cons x xs ih => simp [Finset.sum_range_succ', ih, Nat.add_comm]

/-- The source's bounded chunk loop (`drop`/`take` sum) equals the spec's
index-interval sum. -/
theorem chunk_sum_eq (s : List ℕ) (a b : ℕ) :
    ((s.drop a).take b).sum
      = ∑ j in Finset.Ico a (min (a + b) s.length), s.getD j 0 := by
  rw [list_sum_eq_sum_getD]
  rw [Finset.sum_Ico_eq_sum_range]
  have hlen : ((s.drop a).take b).length = min b (s.length - a) := by
    simp
  rw [hlen]
  have hcard : min (a + b) s.length - a = min b (s.length - a) := by omega
  rw [hcard]
  apply Finset.sum_congr rfl
  intro j hj
  rw [Finset.mem_range] at hj
  have h1 : ((s.drop a).take b).getD j 0 = (s.drop a).getD j 0 := by
    simp [List.getD_eq_getElem?_getD, List.getElem?_take, (by omega : j < b)]
  rw [h1]
  simp [List.getD_eq_getElem?_getD, List.getElem?_drop]

/-- Unfolding of `normalizeFrequencyData` on a non-empty snapshot. -/
theorem normalize_some_pos (s : List ℕ) (barCount : ℕ) (h : s.length ≠ 0) :
    normalizeFrequencyData (some s) barCount
      = (List.range barCount).map (fun i =>
          jsDiv (jsDiv
            (JSNum.num ((((s.drop (i * (s.length / barCount))).take (s.length / barCount)).sum : ℕ) : ℚ))
            (JSNum.num ((s.length / barCount : ℕ) : ℚ))) (JSNum.num 255)) := by
  simp [normalizeFrequencyData, h]

/-- `jsDiv` on finite operands with a nonzero divisor is rational division. -/
theorem jsDiv_num_num (a b : ℚ) (hb : b ≠ 0) :
    jsDiv (JSNum.num a) (JSNum.num b) = JSNum.num (a / b) := by
  simp [jsDiv, hb]

/-- C1: for every snapshot `s` and `0 < barCount ≤ len(s)`, bar `i` of
`normalizeFrequencyData(s, barCount)` is the spec's formula
`(Σ s[j] for j ∈ [i·chunkSize, min(i·chunkSize + chunkSize, len(s)))) / chunkSize / 255`
with `chunkSize = ⌊len(s)/barCount⌋` (so the last chunk, if partial, is
divided by the full `chunkSize`); and on the snapshot
`[0,64,128,192,255,255,192,128]` with `barCount = 4` the bars are
`[32/255, 160/255, 255/255, 160/255]`. -/
theorem C1_normalize_formula (s : List ℕ) (barCount i : ℕ)
    (h0 : 0 < barCount) (hle : barCount ≤ s.length) (hi : i < barCount) :
    (normalizeFrequencyData (some s) barCount)[i]? = some (JSNum.num (specBar s barCount i)) ∧
    normalizeFrequencyData (some [0, 64, 128, 192, 255, 255, 192, 128]) 4
      = [JSNum.num (32 / 255), JSNum.num (160 / 255), JSNum.num 1, JSNum.num (160 / 255)] := by
  constructor
  · have hlen : s.length ≠ 0 := by omega
    have hc : s.length / barCount ≠ 0 := by
      have h1 : 1 ≤ s.length / barCount := (Nat.one_le_div_iff h0).mpr hle
      omega
    have hcq : ((s.length / barCount : ℕ) : ℚ) ≠ 0 := Nat.cast_ne_zero.mpr hc
    rw [normalize_some_pos s barCount hlen]
    rw [List.getElem?_map, List.getElem?_range hi]
    simp only [Option.map_some']
    rw [jsDiv_num_num _ _ hcq, jsDiv_num_num _ _ (by norm_num : (255 : ℚ) ≠ 0)]
    have hsum : ((((s.drop (i * (s.length / barCount))).take (s.length / barCount)).sum : ℕ) : ℚ)
        = ∑ j in Finset.Ico (i * (s.length / barCount))
            (min (i * (s.length / barCount) + s.length / barCount) s.length),
            ((s.getD j 0 : ℕ) : ℚ) := by
      rw [chunk_sum_eq]
      push_cast
      rfl
    rw [Option.some_inj, specBar]
    rw [hsum]
  · norm_num [normalizeFrequencyData, jsDiv, List.range_succ]

/-- Witness for C1 at the spec's own scenario, bar 0. -/
theorem C1_normalize_formula_witness :
    0 < 4 ∧ 4 ≤ ([0, 64, 128, 192, 255, 255, 192, 128] : List ℕ).length ∧ 0 < 4 ∧
    ((normalizeFrequencyData (some ([0, 64, 128, 192, 255, 255, 192, 128] : List ℕ)) 4)[0]?
        = some (JSNum.num (specBar [0, 64, 128, 192, 255, 255, 192, 128] 4 0)) ∧
      normalizeFrequencyData (some [0, 64, 128, 192, 255, 255, 192, 128]) 4
        = [JSNum.num (32 / 255), JSNum.num (160 / 255), JSNum.num 1, JSNum.num (160 / 255)]) :=
  ⟨by decide, by decide, by decide,
    C1_normalize_formula [0, 64, 128, 192, 255, 255, 192, 128] 4 0
      (by decide) (by decide) (by decide)⟩

/-- C3 fails on the code: for the non-empty snapshot `[1]` with
`barCount = 2 > 1 = len`, `chunkSize` is 0 and every bar is the JavaScript
division `0/0 = NaN`; the result is `[NaN, NaN]`, not a zero-filled array. -/
theorem C3_chunk_zero_gives_nan :
    normalizeFrequencyData (some [1]) 2 = [JSNum.nan, JSNum.nan] ∧
    normalizeFrequencyData (some [1]) 2 ≠ List.replicate 2 (JSNum.num 0) := by
  decide

/-- C4: for every `barCount > 0`, a null snapshot and an empty snapshot both
normalize to a zero-filled array of length `barCount`. -/
theorem C4_empty_or_null_zero_fill (barCount : ℕ) (_h : 0 < barCount) :
    normalizeFrequencyData none barCount = List.replicate barCount (JSNum.num 0) ∧
    normalizeFrequencyData (some []) barCount = List.replicate barCount (JSNum.num 0) := by
  constructor <;> simp [normalizeFrequencyData]

/-- Witness for C4 at the default bar count 64. -/
theorem C4_empty_or_null_zero_fill_witness :
    0 < 64 ∧
    (normalizeFrequencyData none 64 = List.replicate 64 (JSNum.num 0) ∧
      normalizeFrequencyData (some []) 64 = List.replicate 64 (JSNum.num 0)) :=
  ⟨by decide, C4_empty_or_null_zero_fill 64 (by decide)⟩

/-- C5 fails on the code: the all-zero snapshot `[0]` with `barCount = 2`
gives `chunkSize = 0`, so every bar is `0/0 = NaN` rather than 0. -/
theorem C5_all_zero_gives_nan :
    normalizeFrequencyData (some [0]) 2 = [JSNum.nan, JSNum.nan] ∧
    normalizeFrequencyData (some [0]) 2 ≠ List.replicate 2 (JSNum.num 0) := by
  decide

/-- A list of naturals bounded by `b` has sum at most `length * b`. -/
theorem list_sum_le_length_mul (l : List ℕ) (b : ℕ) (h : ∀ x ∈ l, x ≤ b) :
    l.sum ≤ l.length * b := by
  calc l.sum ≤ l.length • b := List.sum_le_card_nsmul l b h
  _ = l.length * b := by simp [smul_eq_mul]

/-- C2: for every byte-valued snapshot `s` and `0 < barCount ≤ len(s)`,
`normalizeFrequencyData(s, barCount)` has length exactly `barCount` and every
element is a finite value in `[0, 1]`. -/
theorem C2_normalize_length_and_range (s : List ℕ) (barCount : ℕ)
    (hbyte : ∀ x ∈ s, x ≤ 255) (h0 : 0 < barCount) (hle : barCount ≤ s.length) :
    (normalizeFrequencyData (some s) barCount).length = barCount ∧
    ∀ v ∈ normalizeFrequencyData (some s) barCount,
      ∃ q : ℚ, v = JSNum.num q ∧ 0 ≤ q ∧ q ≤ 1 := by
  have hlen : s.length ≠ 0 := by omega
  have hc : s.length / barCount ≠ 0 := by
    have h1 : 1 ≤ s.length / barCount := (Nat.one_le_div_iff h0).mpr hle
    omega
  have hcq : ((s.length / barCount : ℕ) : ℚ) ≠ 0 := Nat.cast_ne_zero.mpr hc
  rw [normalize_some_pos s barCount hlen]
  constructor
  · simp
  · intro v hv
    rw [List.mem_map] at hv
    obtain ⟨i, _, hfi⟩ := hv
    rw [jsDiv_num_num _ _ hcq, jsDiv_num_num _ _ (by norm_num : (255 : ℚ) ≠ 0)] at hfi
    set c := s.length / barCount with hcdef
    set S := ((s.drop (i * c)).take c).sum with hSdef
    refine ⟨((S : ℚ) / (c : ℚ)) / 255, hfi.symm, ?_, ?_⟩
    · positivity
    · have hSle : S ≤ c * 255 := by
        have hlenle : ((s.drop (i * c)).take c).length ≤ c := by
          simp [List.length_take]
        have hmem : ∀ x ∈ (s.drop (i * c)).take c, x ≤ 255 := by
          intro x hx
          exact hbyte x (List.mem_of_mem_drop (List.mem_of_mem_take hx))
        calc S ≤ ((s.drop (i * c)).take c).length * 255 :=
              list_sum_le_length_mul _ 255 hmem
        _ ≤ c * 255 := Nat.mul_le_mul_right 255 hlenle
      have hq : ((S : ℚ)) ≤ (c : ℚ) * 255 := by exact_mod_cast hSle
      rw [div_div]
      apply div_le_one_of_le₀ hq
      positivity

/-- Witness for C2 at the spec's scenario snapshot with 4 bars. -/
theorem C2_normalize_length_and_range_witness :
    (∀ x ∈ ([0, 64, 128, 192, 255, 255, 192, 128] : List ℕ), x ≤ 255) ∧ 0 < 4 ∧
    4 ≤ ([0, 64, 128, 192, 255, 255, 192, 128] : List ℕ).length ∧
    ((normalizeFrequencyData (some ([0, 64, 128, 192, 255, 255, 192, 128] : List ℕ)) 4).length = 4 ∧
      ∀ v ∈ normalizeFrequencyData (some ([0, 64, 128, 192, 255, 255, 192, 128] : List ℕ)) 4,
        ∃ q : ℚ, v = JSNum.num q ∧ 0 ≤ q ∧ q ≤ 1) :=
  ⟨by decide, by decide, by decide,
    C2_normalize_length_and_range [0, 64, 128, 192, 255, 255, 192, 128] 4
      (by decide) (by decide) (by decide)⟩

/-- `smoothFrom` preserves length. -/
theorem smoothFrom_length (k prev : ℚ) (xs : List ℚ) :
    (smoothFrom k prev xs).length = xs.length := by
  induction xs generalizing prev with
  | nil => rfl
  | cons x xs ih => simp [smoothFrom, ih]

/-- The exponential-smoothing recurrence for `smoothFrom`: entry `i` is the
previous entry (or the seed at `i = 0`) times `k` plus `xs[i] * (1 - k)`. -/
theorem smoothFrom_getD (k : ℚ) (xs : List ℚ) (prev : ℚ) (i : ℕ) (hi : i < xs.length) :
    (smoothFrom k prev xs).getD i 0
      = (if i = 0 then prev else (smoothFrom k prev xs).getD (i - 1) 0) * k
        + xs.getD i 0 * (1 - k) := by
  induction xs generalizing prev i with
  | nil => simp at hi
  | cons x xs ih =>
      cases i with
      | zero => simp [smoothFrom]
      | succ j =>
          have hj : j < xs.length := by simpa using hi
          have step := ih (prev * k + x * (1 - k)) j hj
          cases j with
          | zero =>
              simpa [smoothFrom] using step
          | succ m =>
              simpa [smoothFrom] using step

/-- `smoothArray` preserves length. -/
theorem smoothArray_length (raw : List ℚ) (k : ℚ) :
    (smoothArray raw k).length = raw.length := by
  cases raw with
  | nil => rfl
  | cons a rest => simp [smoothArray, smoothFrom_length]

/-- With `k = 0` the smoothing loop is the identity. -/
theorem smoothFrom_zero (prev : ℚ) (xs : List ℚ) : smoothFrom 0 prev xs = xs := by
  induction xs generalizing prev with
  | nil => rfl
  | cons x xs ih => simp [smoothFrom, ih]

/-- With `k = 1` the smoothing loop repeats the seed. -/
theorem smoothFrom_one (prev : ℚ) (xs : List ℚ) :
    smoothFrom 1 prev xs = List.replicate xs.length prev := by
  induction xs generalizing prev with
  | nil => rfl
  | cons x xs ih => simp [smoothFrom, ih, List.replicate_succ]

/-- C6: for every non-empty `raw` and factor `k`, `smoothArray` keeps the
length, starts with `raw[0]`, and satisfies
`smoothed[i] = smoothed[i-1]*k + raw[i]*(1-k)` for `1 ≤ i < len(raw)`;
consequently `smoothArray raw 0 = raw` and with `k = 1` every entry equals
`raw[0]`. -/
theorem C6_smoothArray_recurrence (raw : List ℚ) (k : ℚ) (hne : raw ≠ []) :
    (smoothArray raw k).length = raw.length ∧
    (smoothArray raw k).getD 0 0 = raw.getD 0 0 ∧
    (∀ i, 1 ≤ i → i < raw.length →
      (smoothArray raw k).getD i 0
        = (smoothArray raw k).getD (i - 1) 0 * k + raw.getD i 0 * (1 - k)) ∧
    smoothArray raw 0 = raw ∧
    (∀ j, j < raw.length → (smoothArray raw 1).getD j 0 = raw.getD 0 0) := by
  obtain ⟨a, rest, rfl⟩ : ∃ a rest, raw = a :: rest := by
    cases raw with
    | nil => exact absurd rfl hne
    | cons a rest => exact ⟨a, rest, rfl⟩
  refine ⟨smoothArray_length _ _, by simp [smoothArray], ?_, ?_, ?_⟩
  · intro i h1 hlen
    obtain ⟨j, rfl⟩ : ∃ j, i = j + 1 := ⟨i - 1, by omega⟩
    have hj : j < rest.length := by simpa using hlen
    have step := smoothFrom_getD k rest a j hj
    cases j with
    | zero => simpa [smoothArray] using step
    | succ m => simpa [smoothArray] using step
  · simp [smoothArray, smoothFrom_zero]
  · intro j hj
    cases j with
    | zero => simp [smoothArray]
    | succ m =>
        have hm : m < rest.length := by simpa using hj
        simp [smoothArray, smoothFrom_one, List.getD_eq_getElem?_getD,
          List.getElem?_replicate, hm]

/-- Witness for C6 on the raw sequence `[1, 2]` with the default factor. -/
theorem C6_smoothArray_recurrence_witness :
    ([(1 : ℚ), 2] ≠ []) ∧
    ((smoothArray [(1 : ℚ), 2] (3 / 10)).length = ([(1 : ℚ), 2] : List ℚ).length ∧
      (smoothArray [(1 : ℚ), 2] (3 / 10)).getD 0 0 = ([(1 : ℚ), 2] : List ℚ).getD 0 0 ∧
      (∀ i, 1 ≤ i → i < ([(1 : ℚ), 2] : List ℚ).length →
        (smoothArray [(1 : ℚ), 2] (3 / 10)).getD i 0
          = (smoothArray [(1 : ℚ), 2] (3 / 10)).getD (i - 1) 0 * (3 / 10)
            + ([(1 : ℚ), 2] : List ℚ).getD i 0 * (1 - 3 / 10)) ∧
      smoothArray [(1 : ℚ), 2] 0 = [(1 : ℚ), 2] ∧
      (∀ j, j < ([(1 : ℚ), 2] : List ℚ).length →
        (smoothArray [(1 : ℚ), 2] 1).getD j 0 = ([(1 : ℚ), 2] : List ℚ).getD 0 0)) :=
  ⟨by simp, C6_smoothArray_recurrence [(1 : ℚ), 2] (3 / 10) (by simp)⟩

/-- C7: on a length-100 snapshot, `getBassLevel` is the mean of bins
`[0, 10)` and `getTrebleLevel` is the mean of bins `[70, 100)`; on an empty
snapshot both return 0. -/
theorem C7_bass_treble_levels (s : List ℕ) (h : s.length = 100) :
    getBassLevel s = JSNum.num ((((s.take 10).sum : ℕ) : ℚ) / 10) ∧
    getTrebleLevel s = JSNum.num ((((s.drop 70).sum : ℕ) : ℚ) / 30) ∧
    getBassLevel [] = JSNum.num 0 ∧
    getTrebleLevel [] = JSNum.num 0 := by
  have hb : ((((100 : ℕ) : ℚ) * (1 / 10)).floor).toNat = 10 := by norm_num; decide
  have ht : ((((100 : ℕ) : ℚ) * (7 / 10)).floor).toNat = 70 := by norm_num; decide
  refine ⟨?_, ?_, by simp [getBassLevel], by simp [getTrebleLevel]⟩
  · simp only [getBassLevel, h]
    rw [hb]
    rw [if_neg (by norm_num)]
    rw [jsDiv_num_num _ _ (by norm_num : ((10 : ℕ) : ℚ) ≠ 0)]
    norm_num
  · simp only [getTrebleLevel, h]
    rw [ht]
    have hlen : (s.drop 70).length = 30 := by simp [h]
    rw [if_neg (by norm_num), if_pos (by rw [hlen]; norm_num), hlen]
    rw [jsDiv_num_num _ _ (by norm_num : ((30 : ℕ) : ℚ) ≠ 0)]
    norm_num

/-- Witness for C7 on the all-zero length-100 snapshot. -/
theorem C7_bass_treble_levels_witness :
    (List.replicate 100 (0 : ℕ)).length = 100 ∧
    (getBassLevel (List.replicate 100 (0 : ℕ))
        = JSNum.num (((((List.replicate 100 (0 : ℕ)).take 10).sum : ℕ) : ℚ) / 10) ∧
      getTrebleLevel (List.replicate 100 (0 : ℕ))
        = JSNum.num (((((List.replicate 100 (0 : ℕ)).drop 70).sum : ℕ) : ℚ) / 30) ∧
      getBassLevel [] = JSNum.num 0 ∧
      getTrebleLevel [] = JSNum.num 0) :=
  ⟨by simp, C7_bass_treble_levels (List.replicate 100 0) (by simp)⟩

/-- C8: `validateAudioFile` rejects (with an error message) exactly the
missing file, a declared type outside the accepted list, or a size over the
100MB limit, and accepts everything else. -/
theorem C8_validateAudioFile_characterization (f : Option AudioFile) :
    (((validateAudioFile f).valid = false ∧ (validateAudioFile f).error ≠ none) ↔
      (f = none ∨ ∃ a, f = some a ∧ (a.type ∉ validTypes ∨ maxSize < a.size))) ∧
    ((validateAudioFile f).valid = true ↔
      ∃ a, f = some a ∧ a.type ∈ validTypes ∧ a.size ≤ maxSize) := by
  cases f with
  | none => simp [validateAudioFile]
  | some a =>
      by_cases hty : a.type ∈ validTypes
      · by_cases hsz : maxSize < a.size
        · simp [validateAudioFile, hty, hsz, Nat.not_le.mpr hsz]
        · simp [validateAudioFile, hty, hsz, Nat.not_lt.mp hsz]
      · simp [validateAudioFile, hty]

/-- C9: `clearAudioCache` keeps exactly the entries whose key starts with
neither `audio_` nor `player_`, with their values unchanged; every entry
whose key has one of the two prefixes is removed. -/
theorem C9_clearAudioCache_mem (store : List (String × String)) (k v : String) :
    ((k, v) ∈ clearAudioCache store ↔
      ((k, v) ∈ store ∧ k.startsWith "audio_" = false ∧ k.startsWith "player_" = false)) ∧
    (∀ p ∈ store, (p.1.startsWith "audio_" = false ∧ p.1.startsWith "player_" = false) →
      p ∈ clearAudioCache store) := by
  constructor
  · simp only [clearAudioCache, List.mem_filter, decide_eq_true_eq, not_or]
    constructor
    · rintro ⟨hmem, hp⟩
      exact ⟨hmem, by simpa using hp⟩
    · rintro ⟨hmem, h1, h2⟩
      exact ⟨hmem, by simp [h1, h2]⟩
  · intro p hmem ⟨h1, h2⟩
    simp only [clearAudioCache, List.mem_filter, decide_eq_true_eq, not_or]
    exact ⟨hmem, by simp [h1, h2]⟩

/-- The raw chunk average of `getBarData`, written from the claim's words:
the chunk sum divided by `⌊len(f)/barCount⌋`, with no division by 255. -/
def specBarRaw (s : List ℕ) (barCount i : ℕ) : ℚ :=
  let dataPoints := s.length / barCount
  (∑ j in Finset.Ico (i * dataPoints) (min (i * dataPoints + dataPoints) s.length),
      ((s.getD j 0 : ℕ) : ℚ)) / (dataPoints : ℚ)

/-- Unfolding of `getBarData` on non-empty frequency data. -/
theorem getBarData_pos (f : List ℕ) (barCount : ℕ) (h : f.length ≠ 0) :
    getBarData f barCount
      = (List.range barCount).map (fun i =>
          jsDiv
            (JSNum.num ((((f.drop (i * (f.length / barCount))).take (f.length / barCount)).sum : ℕ) : ℚ))
            (JSNum.num ((f.length / barCount : ℕ) : ℚ))) := by
  simp [getBarData, h]

/-- C10: for byte-valued frequency data and `0 < barCount ≤ len(f)`,
`getBarData` has length `barCount`, its `i`-th entry is the raw chunk
average (chunk sum over `⌊len(f)/barCount⌋`) with no division by 255, and
every entry is a finite value in `[0, 255]`. -/
theorem C10_getBarData_raw_average (f : List ℕ) (barCount : ℕ)
    (hbyte : ∀ x ∈ f, x ≤ 255) (h0 : 0 < barCount) (hle : barCount ≤ f.length) :
    (getBarData f barCount).length = barCount ∧
    (∀ i, i < barCount →
      (getBarData f barCount)[i]? = some (JSNum.num (specBarRaw f barCount i))) ∧
    (∀ v ∈ getBarData f barCount, ∃ q : ℚ, v = JSNum.num q ∧ 0 ≤ q ∧ q ≤ 255) := by
  have hlen : f.length ≠ 0 := by omega
  have hc : f.length / barCount ≠ 0 := by
    have h1 : 1 ≤ f.length / barCount := (Nat.one_le_div_iff h0).mpr hle
    omega
  have hcq : ((f.length / barCount : ℕ) : ℚ) ≠ 0 := Nat.cast_ne_zero.mpr hc
  rw [getBarData_pos f barCount hlen]
  refine ⟨by simp, ?_, ?_⟩
  · intro i hi
    rw [List.getElem?_map, List.getElem?_range hi]
    simp only [Option.map_some']
    rw [jsDiv_num_num _ _ hcq]
    have hsum : ((((f.drop (i * (f.length / barCount))).take (f.length / barCount)).sum : ℕ) : ℚ)
        = ∑ j in Finset.Ico (i * (f.length / barCount))
            (min (i * (f.length / barCount) + f.length / barCount) f.length),
            ((f.getD j 0 : ℕ) : ℚ) := by
      rw [chunk_sum_eq]
      push_cast
      rfl
    rw [Option.some_inj, specBarRaw]
    rw [hsum]
  · intro v hv
    rw [List.mem_map] at hv
    obtain ⟨i, _, hfi⟩ := hv
    rw [jsDiv_num_num _ _ hcq] at hfi
    set c := f.length / barCount with hcdef
    set S := ((f.drop (i * c)).take c).sum with hSdef
    refine ⟨(S : ℚ) / (c : ℚ), hfi.symm, by positivity, ?_⟩
    have hSle : S ≤ c * 255 := by
      have hlenle : ((f.drop (i * c)).take c).length ≤ c := by
        simp [List.length_take]
      have hmem : ∀ x ∈ (f.drop (i * c)).take c, x ≤ 255 := by
        intro x hx
        exact hbyte x (List.mem_of_mem_drop (List.mem_of_mem_take hx))
      calc S ≤ ((f.drop (i * c)).take c).length * 255 :=
            list_sum_le_length_mul _ 255 hmem
      _ ≤ c * 255 := Nat.mul_le_mul_right 255 hlenle
    have hq : (S : ℚ) ≤ 255 * (c : ℚ) := by
      rw [mul_comm]
      exact_mod_cast hSle
    have hcpos : (0 : ℚ) < (c : ℚ) := by
      have : 0 < c := Nat.pos_of_ne_zero hc
      exact_mod_cast this
    exact (div_le_iff₀ hcpos).mpr hq

/-- Witness for C10 on the frequency data `[10, 20]` with two bars. -/
theorem C10_getBarData_raw_average_witness :
    (∀ x ∈ ([10, 20] : List ℕ), x ≤ 255) ∧ 0 < 2 ∧ 2 ≤ ([10, 20] : List ℕ).length ∧
    ((getBarData [10, 20] 2).length = 2 ∧
      (∀ i, i < 2 → (getBarData [10, 20] 2)[i]? = some (JSNum.num (specBarRaw [10, 20] 2 i))) ∧
      (∀ v ∈ getBarData [10, 20] 2, ∃ q : ℚ, v = JSNum.num q ∧ 0 ≤ q ∧ q ≤ 255)) :=
  ⟨by decide, by decide, by decide,
    C10_getBarData_raw_average [10, 20] 2 (by decide) (by decide) (by decide)⟩
